import Mathlib

/-!
Verification of the forward-chaining rule engine in `heartdesease.py`
(`check_condition`, `HeartDiseaseEngine.__init__`, `HeartDiseaseEngine.run`,
`build_graph_dot`).  Python dictionaries are modelled as association lists
with first-occurrence lookup and in-place update; Python values occurring in
the engine (ints and strings) are modelled by the tagged union `Value`; a
Python `TypeError` raised by an ordered comparison of mismatched types is
modelled by `Except.error ()`.
-/

namespace HeartDisease

/-- Fact values: Python ints and strings as used by the engine. -/
inductive Value where
  | int : Int → Value
  | str : String → Value
deriving DecidableEq, Repr

/-- Python `a == b` for int/str operands: mismatched types compare unequal. -/
def valueEq : Value → Value → Bool
  | .int a, .int b => a == b
  | .str a, .str b => a == b
  | _, _ => false

/-- Python `a < b`: defined for int/int and str/str, raises `TypeError`
(modelled as `.error ()`) on mismatched types. -/
def valueLt : Value → Value → Except Unit Bool
  | .int a, .int b => .ok (decide (a < b))
  | .str a, .str b => .ok (decide (a < b))
  | _, _ => .error ()

/-- Python `a <= b`. -/
def valueLe : Value → Value → Except Unit Bool
  | .int a, .int b => .ok (decide (a ≤ b))
  | .str a, .str b => .ok (decide (a < b) || a == b)
  | _, _ => .error ()

/-- Python `a > b`. -/
def valueGt (a b : Value) : Except Unit Bool := valueLt b a

/-- Python `a >= b`. -/
def valueGe (a b : Value) : Except Unit Bool := valueLe b a

/-- Whether two values have the same Python type (both ints or both
strings); ordered comparisons raise `TypeError` exactly on mixed kinds. -/
def sameKind : Value → Value → Bool
  | .int _, .int _ => true
  | .str _, .str _ => true
  | _, _ => false

/-- A Python dict with string keys: association list, no duplicate keys
arise from the operations below. -/
abbrev Facts := List (String × Value)

/-- Python `facts.get(k)` and `k in facts`: first-occurrence lookup. -/
def factsGet : Facts → String → Option Value
  | [], _ => none
  | (k', v) :: rest, k => if k' = k then some v else factsGet rest k

/-- Python `facts[k] = v`: replace in place if the key is present (keeping its
position, as a Python dict does), else append at the end. -/
def factsSet : Facts → String → Value → Facts
  | [], k, v => [(k, v)]
  | (k', v') :: rest, k, v =>
      if k' = k then (k, v) :: rest else (k', v') :: factsSet rest k v

/-- A condition triple `(fact_key, operator, value)`. -/
abbrev Condition := String × String × Value

/-- The function `check_condition` from `heartdesease.py`: absent key gives `False`,
unknown operator gives `False`, otherwise the comparison is applied (and a
mismatched-type ordered comparison raises, modelled as `.error ()`). -/
def check_condition (condition : Condition) (facts : Facts) : Except Unit Bool :=
  match factsGet facts condition.1 with
  | none => .ok false
  | some current =>
    match condition.2.1 with
    | "==" => .ok (valueEq current condition.2.2)
    | "!=" => .ok (!valueEq current condition.2.2)
    | ">=" => valueGe current condition.2.2
    | "<=" => valueLe current condition.2.2
    | ">" => valueGt current condition.2.2
    | "<" => valueLt current condition.2.2
    | _ => .ok false

/-- Python `all(check_condition(cond, facts) for cond in rule.conditions)`:
short-circuit conjunction, propagating a raised `TypeError`. -/
def checkConds : List Condition → Facts → Except Unit Bool
  | [], _ => .ok true
  | c :: cs, facts =>
    match check_condition c facts with
    | .error e => .error e
    | .ok false => .ok false
    | .ok true => checkConds cs facts

/-- The `InferenceRule` dataclass. -/
structure InferenceRule where
  identifier : String
  conditions : List Condition
  conclusion : String × Value
  priority : Int
deriving DecidableEq, Repr

namespace HeartDiseaseEngine

/-- One step of Python's stable sort: insert a rule into an already
descending-sorted list, before the first rule of not-larger priority (so an
element earlier in the input precedes equal-priority elements). -/
def insertRule (r : InferenceRule) : List InferenceRule → List InferenceRule
  | [] => [r]
  | x :: xs => if x.priority ≤ r.priority then r :: x :: xs else x :: insertRule r xs

/-- The constructor `HeartDiseaseEngine.__init__`:
`self.rules = sorted(rules, key=lambda r: r.priority, reverse=True)` —
a stable sort by priority descending. -/
def init (rules : List InferenceRule) : List InferenceRule :=
  rules.foldr insertRule []

/-- The body of one iteration of the `for rule in self.rules` loop sequence:
process the remaining rules of the current pass, threading the working fact
store, the `triggered_rules` list and the `new_fact_added` flag. -/
def runPass : List InferenceRule → Facts → List String → Bool →
    Except Unit (Facts × List String × Bool)
  | [], facts, fired, ch => .ok (facts, fired, ch)
  | r :: rs, facts, fired, ch =>
    if r.identifier ∈ fired then runPass rs facts fired ch
    else
      match checkConds r.conditions facts with
      | .error e => .error e
      | .ok false => runPass rs facts fired ch
      | .ok true =>
        if factsGet facts r.conclusion.1 = some r.conclusion.2 then
          runPass rs facts fired ch
        else
          runPass rs (factsSet facts r.conclusion.1 r.conclusion.2)
            (fired ++ [r.identifier]) true

/-- The `while new_fact_added` loop, fuel-indexed by the number of remaining
passes; `none` means the fuel ran out (shown below never to happen for fuel
`rules.length + 1`). -/
def runLoop (rules : List InferenceRule) : Nat → Facts → List String →
    Option (Except Unit (Facts × List String))
  | 0, _, _ => none
  | fuel + 1, facts, fired =>
    match runPass rules facts fired false with
    | .error e => some (.error e)
    | .ok (facts', fired', changed) =>
      if changed then runLoop rules fuel facts' fired'
      else some (.ok (facts', fired'))

/-- The method `HeartDiseaseEngine.run` for an engine whose `self.rules` is `rules`:
copy the initial facts (the copy is the identity on values), run passes to
quiescence, return the final facts and the trigger trace. -/
def run (rules : List InferenceRule) (initial_facts : Facts) :
    Except Unit (Facts × List String) :=
  (runLoop rules (rules.length + 1) initial_facts []).getD (.error ())

/-- Applying a fired rule's conclusion to the working store. -/
def applyRule (acc : Facts) (r : InferenceRule) : Facts :=
  factsSet acc r.conclusion.1 r.conclusion.2

/-- Applying the conclusion of the rule carrying a given identifier (used to
restate the final store as a fold over the trigger trace). -/
def applyFiredId (rules : List InferenceRule) (acc : Facts) (i : String) : Facts :=
  match rules.find? (fun r => r.identifier == i) with
  | some r => applyRule acc r
  | none => acc

end HeartDiseaseEngine

/-- Constructing the engine and running it: `HeartDiseaseEngine(rules).run(facts)`. -/
def engineRun (rules : List InferenceRule) (facts : Facts) :
    Except Unit (Facts × List String) :=
  HeartDiseaseEngine.run (HeartDiseaseEngine.init rules) facts

/-- Boolean test that a rule's priority equals `p` (used to state the
stability of the construction-time sort). -/
def prioEq (p : Int) (r : InferenceRule) : Bool := r.priority == p

/-! ### The dependency-graph exporter `build_graph_dot` -/

/-- Python `r.identifier.replace` applied to quote characters: escape double
quotes in a label. -/
def escapeLabel (s : String) : String :=
  String.mk (s.toList.foldr
    (fun ch acc => if ch = '"' then '\\' :: '"' :: acc else ch :: acc) [])

/-- Code-point lexicographic comparison of character lists — the order
Python uses to compare strings. -/
def chListLt : List Char → List Char → Bool
  | _, [] => false
  | [], _ :: _ => true
  | a :: as, b :: bs =>
    if a.val < b.val then true
    else if b.val < a.val then false
    else chListLt as bs

/-- Python `a < b` on strings: code-point lexicographic. -/
def strLt (a b : String) : Bool := chListLt a.toList b.toList

/-- Insert a string into an ascending-sorted list (Python `sorted`). -/
def insertStr (s : String) : List String → List String
  | [] => [s]
  | x :: xs => if strLt s x || s == x then s :: x :: xs else x :: insertStr s xs

/-- Ascending sort of a list of strings. -/
def sortStrings (l : List String) : List String := l.foldr insertStr []

/-- The fact keys a rule mentions, in source order: its condition keys then
its conclusion key. -/
def ruleFactKeys (r : InferenceRule) : List String :=
  r.conditions.map (fun c => c.1) ++ [r.conclusion.1]

/-- All fact keys mentioned by a rule set. -/
def allFactKeys (rules : List InferenceRule) : List String :=
  (rules.map ruleFactKeys).flatten

/-- Python `sorted(fact_keys)` where `fact_keys` is the set of keys mentioned by
the rule set: the distinct keys in ascending order. -/
def sortedFactKeys (rules : List InferenceRule) : List String :=
  sortStrings (allFactKeys rules).dedup

/-- The three header lines of the DOT output. -/
def graphHeader : List String :=
  ["digraph G \x7b", "rankdir=LR;",
   "node [shape=box, style=\"rounded,filled\", fillcolor=\"#ffffff\"];"]

/-- One fact node declaration line. -/
def factNodeLine (fk : String) : String :=
  "\"" ++ fk ++ "\" [shape=oval, fillcolor=\"#ffffe0\"];"

/-- The graph name of the `i`-th rule. -/
def ruleNodeName (i : Nat) : String := "rule_" ++ toString i

/-- One rule node declaration line; fired rules get the highlight color. -/
def ruleNodeLine (i : Nat) (r : InferenceRule) (fired : List String) : String :=
  "\"" ++ ruleNodeName i ++ "\" [label=\"" ++ escapeLabel r.identifier ++
    "\", shape=box, style=\"filled\", fillcolor=\"" ++
    (if r.identifier ∈ fired then "#b3e6b3" else "#e6f0ff") ++ "\"];"

/-- One directed edge line. -/
def edgeLine (a b : String) : String := "\"" ++ a ++ "\" -> \"" ++ b ++ "\";"

/-- The lines emitted for the `i`-th rule: its node, an edge from each
condition key to the rule, and an edge from the rule to its conclusion key. -/
def ruleBlock (fired : List String) (i : Nat) (r : InferenceRule) : List String :=
  ruleNodeLine i r fired ::
    r.conditions.map (fun c => edgeLine c.1 (ruleNodeName i)) ++
    [edgeLine (ruleNodeName i) r.conclusion.1]

/-- The full list of lines built by `build_graph_dot`. -/
def build_graph_lines (rules : List InferenceRule) (fired : List String) :
    List String :=
  graphHeader ++ (sortedFactKeys rules).map factNodeLine ++
    (rules.enum.map (fun p => ruleBlock fired p.1 p.2)).flatten ++ ["\x7d"]

/-- The function `build_graph_dot(rules, fired_rules)` from `heartdesease.py`. -/
def build_graph_dot (rules : List InferenceRule) (fired : List String) : String :=
  String.intercalate "\n" (build_graph_lines rules fired)

/-! ### A heap model for the frame claim

`run` receives a reference to the caller's dict and immediately copies it
(`facts = dict(initial_facts)`); every later write goes through the copy.
To express that the caller's object is not mutated we model a heap of
Python dict objects addressed by naturals, with allocation at a fresh
address, and rerun the engine through heap reads and writes. -/

/-- A heap of Python dict objects. -/
structure PyHeap where
  mem : Nat → Facts
  next : Nat

/-- Overwrite the object at an address. -/
def heapWrite (h : PyHeap) (a : Nat) (f : Facts) : PyHeap :=
  ⟨fun a' => if a' = a then f else h.mem a', h.next⟩

/-- Allocate a new object at a fresh address. -/
def heapAlloc (h : PyHeap) (f : Facts) : Nat × PyHeap :=
  (h.next, ⟨fun a' => if a' = h.next then f else h.mem a', h.next + 1⟩)

namespace HeartDiseaseEngine

/-- One pass of the `for` loop acting on the working dict through the heap:
every read and write of `facts` goes through address `addr`. -/
def runPassH (addr : Nat) : List InferenceRule → List String → Bool → PyHeap →
    Except Unit (List String × Bool) × PyHeap
  | [], fired, ch, h => (.ok (fired, ch), h)
  | r :: rs, fired, ch, h =>
    if r.identifier ∈ fired then runPassH addr rs fired ch h
    else
      match checkConds r.conditions (h.mem addr) with
      | .error e => (.error e, h)
      | .ok false => runPassH addr rs fired ch h
      | .ok true =>
        if factsGet (h.mem addr) r.conclusion.1 = some r.conclusion.2 then
          runPassH addr rs fired ch h
        else
          runPassH addr rs (fired ++ [r.identifier]) true
            (heapWrite h addr
              (factsSet (h.mem addr) r.conclusion.1 r.conclusion.2))

/-- The `while` loop acting through the heap. -/
def runLoopH (rules : List InferenceRule) (addr : Nat) :
    Nat → List String → PyHeap → Except Unit (List String) × PyHeap
  | 0, _, h => (.error (), h)
  | fuel + 1, fired, h =>
    match runPassH addr rules fired false h with
    | (.error e, h') => (.error e, h')
    | (.ok (fired', changed), h') =>
      if changed then runLoopH rules addr fuel fired' h'
      else (.ok fired', h')

/-- The method `run` at the heap level: `facts = dict(initial_facts)` allocates a fresh
copy of the caller's dict, the loop mutates only that copy, and the copy's
address is what the caller gets back as `finalFacts`. -/
def runH (rules : List InferenceRule) (initAddr : Nat) (h : PyHeap) :
    Except Unit (Nat × List String) × PyHeap :=
  let alloc := heapAlloc h (h.mem initAddr)
  match runLoopH rules alloc.1 (rules.length + 1) [] alloc.2 with
  | (.error e, h2) => (.error e, h2)
  | (.ok fired, h2) => (.ok (alloc.1, fired), h2)

end HeartDiseaseEngine

/-! ### Concrete inputs used as witnesses and counterexamples -/

/-- Scenario-A rule `R1: if a==1 then b=1`, priority 2. -/
def scR1 : InferenceRule := ⟨"R1", [("a", "==", .int 1)], ("b", .int 1), 2⟩

/-- Scenario-A rule `R2: if b==1 then c=1`, priority 1. -/
def scR2 : InferenceRule := ⟨"R2", [("b", "==", .int 1)], ("c", .int 1), 1⟩

/-- A rule that overwrites `k` with 2, making the no-op suppression of a
later `k := 1` rule fail on the second look. -/
def ceX : InferenceRule := ⟨"X", [("a", "==", .int 1)], ("k", .int 2), 1⟩

/-- A rule concluding `k := 1`, the value `k` already has initially. -/
def ceR : InferenceRule := ⟨"R", [("a", "==", .int 1)], ("k", .int 1), 0⟩

/-! ### Basic lemmas about the fact store -/

theorem factsGet_set_self (f : Facts) (k : String) (v : Value) :
    factsGet (factsSet f k v) k = some v := by
  induction f with
  | nil => simp [factsSet, factsGet]
  | cons p rest ih =>
    by_cases h : p.1 = k
    · simp [factsSet, h, factsGet]
    · simp [factsSet, h, factsGet, ih]

theorem factsGet_set_ne (f : Facts) (k : String) (v : Value) (k' : String)
    (h : k ≠ k') : factsGet (factsSet f k v) k' = factsGet f k' := by
  induction f with
  | nil => simp [factsSet, factsGet, h]
  | cons p rest ih =>
    by_cases hp : p.1 = k
    · subst hp
      simp [factsSet, factsGet, h, ih]
    · by_cases hp' : p.1 = k'
      · simp [factsSet, factsGet, hp, hp', Ne.symm h]
      · simp [factsSet, factsGet, hp, hp', ih]

theorem factsGet_set_isSome (f : Facts) (k : String) (v : Value) (k' : String)
    (h : factsGet f k' ≠ none) : factsGet (factsSet f k v) k' ≠ none := by
  by_cases hk : k = k'
  · subst hk; simp [factsGet_set_self]
  · rwa [factsGet_set_ne f k v k' hk]

theorem check_condition_set_ne (c : Condition) (facts : Facts) (k : String)
    (v : Value) (h : c.1 ≠ k) :
    check_condition c (factsSet facts k v) = check_condition c facts := by
  unfold check_condition
  rw [factsGet_set_ne facts k v c.1 (fun he => h he.symm)]

theorem checkConds_set_ne (cs : List Condition) (facts : Facts) (k : String)
    (v : Value) (h : ∀ c ∈ cs, c.1 ≠ k) :
    checkConds cs (factsSet facts k v) = checkConds cs facts := by
  induction cs with
  | nil => rfl
  | cons c cs ih =>
    unfold checkConds
    rw [check_condition_set_ne c facts k v (h c (by simp))]
    exact match check_condition c facts with
      | .error _ => rfl
      | .ok false => rfl
      | .ok true => ih (fun c' hc' => h c' (by simp [hc']))

/-! ### The single-pass specification -/

namespace HeartDiseaseEngine

/-- What one pass of the `for` loop does: it fires some sub-multiset `new`
of the remaining rules, in order; the trigger list is extended by their
identifiers (none already fired, no identifier twice), the fact store is the
fold of their conclusions, and the `new_fact_added` flag records whether
anything fired. -/
theorem runPass_spec (rs : List InferenceRule) :
    ∀ (facts : Facts) (fired : List String) (ch : Bool) (facts' : Facts)
      (fired' : List String) (ch' : Bool),
      runPass rs facts fired ch = .ok (facts', fired', ch') →
      ∃ new : List InferenceRule,
        fired' = fired ++ new.map (·.identifier) ∧
        facts' = new.foldl applyRule facts ∧
        (∀ r ∈ new, r ∈ rs) ∧
        (new.map (·.identifier)).Nodup ∧
        (∀ r ∈ new, r.identifier ∉ fired) ∧
        ch' = (ch || !new.isEmpty) := by
  induction rs with
  | nil =>
    intro facts fired ch facts' fired' ch' h
    refine ⟨[], ?_⟩
    simp only [runPass, Except.ok.injEq, Prod.mk.injEq] at h
    obtain ⟨h1, h2, h3⟩ := h
    simp [h1, h2, h3]
  | cons r rs ih =>
    intro facts fired ch facts' fired' ch' h
    rw [runPass] at h
    by_cases hmem : r.identifier ∈ fired
    · rw [if_pos hmem] at h
      obtain ⟨new, h1, h2, h3, h4, h5, h6⟩ := ih facts fired ch facts' fired' ch' h
      exact ⟨new, h1, h2, fun r' hr' => List.mem_cons_of_mem r (h3 r' hr'), h4, h5, h6⟩
    · rw [if_neg hmem] at h
      cases hcc : checkConds r.conditions facts with
      | error e => rw [hcc] at h; exact absurd h (by simp)
      | ok b =>
        rw [hcc] at h
        cases b with
        | false =>
          obtain ⟨new, h1, h2, h3, h4, h5, h6⟩ := ih facts fired ch facts' fired' ch' h
          exact ⟨new, h1, h2, fun r' hr' => List.mem_cons_of_mem r (h3 r' hr'), h4, h5, h6⟩
        | true =>
          by_cases hnoop : factsGet facts r.conclusion.1 = some r.conclusion.2
          · rw [if_pos hnoop] at h
            obtain ⟨new, h1, h2, h3, h4, h5, h6⟩ := ih facts fired ch facts' fired' ch' h
            exact ⟨new, h1, h2, fun r' hr' => List.mem_cons_of_mem r (h3 r' hr'), h4, h5, h6⟩
          · rw [if_neg hnoop] at h
            obtain ⟨new, h1, h2, h3, h4, h5, h6⟩ :=
              ih (factsSet facts r.conclusion.1 r.conclusion.2)
                (fired ++ [r.identifier]) true facts' fired' ch' h
            refine ⟨r :: new, ?_, ?_, ?_, ?_, ?_, ?_⟩
            · simp only [List.map_cons]
              rw [h1, List.append_assoc]
              rfl
            · simpa [applyRule] using h2
            · intro r' hr'
              rcases List.mem_cons.mp hr' with h | h
              · simp [h]
              · exact List.mem_cons_of_mem r (h3 r' h)
            · simp only [List.map_cons, List.nodup_cons]
              refine ⟨?_, h4⟩
              intro hin
              obtain ⟨r', hr', hid⟩ := List.mem_map.mp hin
              exact (h5 r' hr') (by simp [hid])
            · intro r' hr'
              rcases List.mem_cons.mp hr' with h | h
              · simpa [h] using hmem
              · intro hin
                exact (h5 r' h) (by simp [hin])
            · simp [h6]

/-- What the full `while` loop does when it returns normally: the trigger
trace extends `fired` with the identifiers of a list `new` of fired rules
(each a rule of the engine, none previously fired, no identifier twice) and
the final store is the fold of their conclusions over the working store. -/
theorem runLoop_ok_spec (rules : List InferenceRule) :
    ∀ (fuel : Nat) (facts : Facts) (fired : List String) (f : Facts)
      (tr : List String),
      runLoop rules fuel facts fired = some (.ok (f, tr)) →
      ∃ new : List InferenceRule,
        tr = fired ++ new.map (·.identifier) ∧
        f = new.foldl applyRule facts ∧
        (∀ r ∈ new, r ∈ rules) ∧
        (new.map (·.identifier)).Nodup ∧
        (∀ r ∈ new, r.identifier ∉ fired) := by
  intro fuel
  induction fuel with
  | zero => intro facts fired f tr h; exact absurd h (by simp [runLoop])
  | succ fuel ih =>
    intro facts fired f tr h
    rw [runLoop] at h
    cases hp : runPass rules facts fired false with
    | error e => rw [hp] at h; simp at h
    | ok out =>
      obtain ⟨facts1, fired1, changed⟩ := out
      rw [hp] at h
      obtain ⟨n1, e1, e2, e3, e4, e5, _⟩ :=
        runPass_spec rules facts fired false facts1 fired1 changed hp
      cases changed with
      | false =>
        simp only [Bool.false_eq_true, if_false, Option.some.injEq,
          Except.ok.injEq, Prod.mk.injEq] at h
        obtain ⟨hf, htr⟩ := h
        exact ⟨n1, by rw [← htr, e1], by rw [← hf, e2], e3, e4, e5⟩
      | true =>
        simp only [if_true] at h
        obtain ⟨n2, g1, g2, g3, g4, g5⟩ := ih facts1 fired1 f tr h
        refine ⟨n1 ++ n2, ?_, ?_, ?_, ?_, ?_⟩
        · rw [g1, e1, List.map_append, List.append_assoc]
        · rw [g2, e2, List.foldl_append]
        · intro r hr
          rcases List.mem_append.mp hr with h | h
          · exact e3 r h
          · exact g3 r h
        · rw [List.map_append, List.nodup_append]
          refine ⟨e4, g4, ?_⟩
          intro a ha1 ha2
          obtain ⟨r2, hr2, hid2⟩ := List.mem_map.mp ha2
          have := g5 r2 hr2
          rw [e1, hid2] at this
          exact this (List.mem_append.mpr (Or.inr ha1))
        · intro r hr
          rcases List.mem_append.mp hr with h | h
          · exact e5 r h
          · have := g5 r h
            rw [e1] at this
            exact fun hin => this (List.mem_append.mpr (Or.inl hin))

/-- Termination with explicit fuel accounting: a pass that changes nothing
ends the loop, a pass that changes something fires at least one not-yet-fired
rule, so the loop ends within `rules.length - fired.length + 1` passes. -/
theorem runLoop_isSome (rules : List InferenceRule) :
    ∀ (fuel : Nat) (facts : Facts) (fired : List String),
      fired.Nodup →
      (∀ i ∈ fired, i ∈ rules.map (·.identifier)) →
      rules.length - fired.length < fuel →
      (runLoop rules fuel facts fired).isSome := by
  intro fuel
  induction fuel with
  | zero => intro facts fired _ _ hlt; omega
  | succ fuel ih =>
    intro facts fired hnd hsub hlt
    rw [runLoop]
    cases hp : runPass rules facts fired false with
    | error e => simp
    | ok out =>
      obtain ⟨facts1, fired1, changed⟩ := out
      cases changed with
      | false => simp
      | true =>
        simp only [if_true]
        obtain ⟨n1, e1, _, e3, e4, e5, e6⟩ :=
          runPass_spec rules facts fired false facts1 fired1 true hp
        have hne : n1 ≠ [] := by
          intro hnil
          rw [hnil] at e6
          simp at e6
        have hnd1 : fired1.Nodup := by
          rw [e1, List.nodup_append]
          refine ⟨hnd, e4, ?_⟩
          intro a ha1 ha2
          obtain ⟨r, hr, hid⟩ := List.mem_map.mp ha2
          exact (e5 r hr) (hid ▸ ha1)
        have hsub1 : ∀ i ∈ fired1, i ∈ rules.map (·.identifier) := by
          intro i hi
          rw [e1] at hi
          rcases List.mem_append.mp hi with h | h
          · exact hsub i h
          · obtain ⟨r, hr, hid⟩ := List.mem_map.mp h
            exact hid ▸ List.mem_map_of_mem _ (e3 r hr)
        have hlen1 : fired1.length ≤ rules.length := by
          have := List.Subperm.length_le (List.subperm_of_subset hnd1 hsub1)
          simpa using this
        have hgrow : fired.length < fired1.length := by
          rw [e1, List.length_append]
          have : 0 < (n1.map (·.identifier)).length := by
            simp [List.length_pos, hne]
          omega
        exact ih facts1 fired1 hnd1 hsub1 (by omega)

/-! ### Lemmas about the construction-time sort -/

theorem insertRule_perm (r : InferenceRule) (l : List InferenceRule) :
    List.Perm (insertRule r l) (r :: l) := by
  induction l with
  | nil => rfl
  | cons x xs ih =>
    rw [insertRule]
    by_cases h : x.priority ≤ r.priority
    · rw [if_pos h]
    · rw [if_neg h]
      exact (List.Perm.cons x ih).trans (List.Perm.swap r x xs)

theorem mem_insertRule {a r : InferenceRule} {l : List InferenceRule} :
    a ∈ insertRule r l ↔ a = r ∨ a ∈ l := by
  rw [(insertRule_perm r l).mem_iff, List.mem_cons]

theorem insertRule_pairwise (r : InferenceRule) (l : List InferenceRule)
    (h : l.Pairwise (fun a b => b.priority ≤ a.priority)) :
    (insertRule r l).Pairwise (fun a b => b.priority ≤ a.priority) := by
  induction l with
  | nil => simp [insertRule]
  | cons x xs ih =>
    rw [insertRule]
    rw [List.pairwise_cons] at h
    obtain ⟨hx, hxs⟩ := h
    by_cases hc : x.priority ≤ r.priority
    · rw [if_pos hc]
      refine List.Pairwise.cons ?_ (List.Pairwise.cons hx hxs)
      intro b hb
      rcases List.mem_cons.mp hb with hb | hb
      · exact hb ▸ hc
      · exact le_trans (hx b hb) hc
    · rw [if_neg hc]
      refine List.Pairwise.cons ?_ (ih hxs)
      intro b hb
      rcases mem_insertRule.mp hb with hb | hb
      · exact hb ▸ le_of_lt (lt_of_not_le hc)
      · exact hx b hb

theorem insertRule_filter_eq (r : InferenceRule) (l : List InferenceRule)
    (p : Int) (h : r.priority = p) :
    (insertRule r l).filter (prioEq p) = r :: l.filter (prioEq p) := by
  induction l with
  | nil => simp [insertRule, List.filter, prioEq, h]
  | cons x xs ih =>
    rw [insertRule]
    by_cases hc : x.priority ≤ r.priority
    · rw [if_pos hc]
      simp [List.filter, prioEq, h]
    · rw [if_neg hc]
      have hxp : prioEq p x = false := by
        simp only [prioEq, beq_eq_false_iff_ne, ne_eq]
        intro he
        exact hc (le_of_eq (h ▸ he))
      simp [List.filter, hxp, ih]

theorem insertRule_filter_ne (r : InferenceRule) (l : List InferenceRule)
    (p : Int) (h : r.priority ≠ p) :
    (insertRule r l).filter (prioEq p) = l.filter (prioEq p) := by
  have hrp : prioEq p r = false := by
    simp only [prioEq, beq_eq_false_iff_ne, ne_eq]
    exact h
  induction l with
  | nil => simp [insertRule, List.filter, hrp]
  | cons x xs ih =>
    rw [insertRule]
    by_cases hc : x.priority ≤ r.priority
    · rw [if_pos hc]
      simp [List.filter, hrp]
    · rw [if_neg hc]
      simp [List.filter, ih]

theorem init_perm (rules : List InferenceRule) :
    List.Perm (init rules) rules := by
  induction rules with
  | nil => rfl
  | cons r rs ih =>
    exact (insertRule_perm r (init rs)).trans (List.Perm.cons r ih)

theorem init_pairwise (rules : List InferenceRule) :
    (init rules).Pairwise (fun a b => b.priority ≤ a.priority) := by
  induction rules with
  | nil => simp [init]
  | cons r rs ih => exact insertRule_pairwise r (init rs) ih

theorem init_filter (rules : List InferenceRule) (p : Int) :
    (init rules).filter (prioEq p) = rules.filter (prioEq p) := by
  induction rules with
  | nil => rfl
  | cons r rs ih =>
    show (insertRule r (init rs)).filter (prioEq p) = _
    by_cases h : r.priority = p
    · rw [insertRule_filter_eq r (init rs) p h, ih]
      have : prioEq p r = true := by simp [prioEq, h]
      simp [List.filter, this]
    · rw [insertRule_filter_ne r (init rs) p h, ih]
      have : prioEq p r = false := by simp [prioEq, h]
      simp [List.filter, this]

/-! ### Invariant for no-op suppression -/

/-- If every rule of the pass that concludes on key `k` concludes the value
`v` that `k` already holds, then one pass keeps `k ↦ v` and never fires a
rule carrying identifier `i₀` whose conclusion key is forced to be `k`. -/
theorem runPass_noop_invariant (k : String) (v : Value) (i₀ : String) :
    ∀ (rs : List InferenceRule) (facts : Facts) (fired : List String)
      (ch : Bool) (facts' : Facts) (fired' : List String) (ch' : Bool),
      (∀ r ∈ rs, r.conclusion.1 = k → r.conclusion.2 = v) →
      (∀ r ∈ rs, r.identifier = i₀ → r.conclusion.1 = k) →
      factsGet facts k = some v → i₀ ∉ fired →
      runPass rs facts fired ch = .ok (facts', fired', ch') →
      factsGet facts' k = some v ∧ i₀ ∉ fired' := by
  intro rs
  induction rs with
  | nil =>
    intro facts fired ch facts' fired' ch' _ _ hk hf h
    simp only [runPass, Except.ok.injEq, Prod.mk.injEq] at h
    obtain ⟨h1, h2, _⟩ := h
    exact ⟨h1 ▸ hk, h2 ▸ hf⟩
  | cons r rs ih =>
    intro facts fired ch facts' fired' ch' hvals hids hk hf h
    have hvals' : ∀ r' ∈ rs, r'.conclusion.1 = k → r'.conclusion.2 = v :=
      fun r' hr' => hvals r' (List.mem_cons_of_mem r hr')
    have hids' : ∀ r' ∈ rs, r'.identifier = i₀ → r'.conclusion.1 = k :=
      fun r' hr' => hids r' (List.mem_cons_of_mem r hr')
    rw [runPass] at h
    by_cases hmem : r.identifier ∈ fired
    · rw [if_pos hmem] at h
      exact ih facts fired ch facts' fired' ch' hvals' hids' hk hf h
    · rw [if_neg hmem] at h
      cases hcc : checkConds r.conditions facts with
      | error e => rw [hcc] at h; exact absurd h (by simp)
      | ok b =>
        rw [hcc] at h
        cases b with
        | false => exact ih facts fired ch facts' fired' ch' hvals' hids' hk hf h
        | true =>
          by_cases hnoop : factsGet facts r.conclusion.1 = some r.conclusion.2
          · rw [if_pos hnoop] at h
            exact ih facts fired ch facts' fired' ch' hvals' hids' hk hf h
          · rw [if_neg hnoop] at h
            have hck : r.conclusion.1 ≠ k := by
              intro he
              exact hnoop (by rw [he, hvals r (by simp) he, hk])
            have hk2 :
                factsGet (factsSet facts r.conclusion.1 r.conclusion.2) k =
                  some v := by
              rw [factsGet_set_ne facts r.conclusion.1 r.conclusion.2 k hck]
              exact hk
            have hf2 : i₀ ∉ fired ++ [r.identifier] := by
              intro hin
              rcases List.mem_append.mp hin with hin | hin
              · exact hf hin
              · have : r.identifier = i₀ := by
                  have := List.mem_singleton.mp hin
                  exact this.symm
                exact hck (hids r (by simp) this)
            exact ih _ _ true facts' fired' ch' hvals' hids' hk2 hf2 h

/-- The same invariant carried through the whole `while` loop. -/
theorem runLoop_noop_invariant (rules : List InferenceRule) (k : String)
    (v : Value) (i₀ : String)
    (hvals : ∀ r ∈ rules, r.conclusion.1 = k → r.conclusion.2 = v)
    (hids : ∀ r ∈ rules, r.identifier = i₀ → r.conclusion.1 = k) :
    ∀ (fuel : Nat) (facts : Facts) (fired : List String) (f : Facts)
      (tr : List String),
      factsGet facts k = some v → i₀ ∉ fired →
      runLoop rules fuel facts fired = some (.ok (f, tr)) →
      i₀ ∉ tr := by
  intro fuel
  induction fuel with
  | zero => intro facts fired f tr _ _ h; exact absurd h (by simp [runLoop])
  | succ fuel ih =>
    intro facts fired f tr hk hf h
    rw [runLoop] at h
    cases hp : runPass rules facts fired false with
    | error e => rw [hp] at h; simp at h
    | ok out =>
      obtain ⟨facts1, fired1, changed⟩ := out
      rw [hp] at h
      obtain ⟨hk1, hf1⟩ :=
        runPass_noop_invariant k v i₀ rules facts fired false facts1 fired1
          changed hvals hids hk hf hp
      cases changed with
      | false =>
        simp only [Bool.false_eq_true, if_false, Option.some.injEq,
          Except.ok.injEq, Prod.mk.injEq] at h
        exact h.2 ▸ hf1
      | true =>
        simp only [if_true] at h
        exact ih facts1 fired1 f tr hk1 hf1 h

/-! ### Relating the trace fold to the rule fold -/

/-- With duplicate-free identifiers, looking a member rule up by its own
identifier finds exactly that rule. -/
theorem find?_eq_of_mem_of_nodup (rules : List InferenceRule)
    (r : InferenceRule) (hnd : (rules.map (·.identifier)).Nodup)
    (hr : r ∈ rules) :
    rules.find? (fun r' => r'.identifier == r.identifier) = some r := by
  induction rules with
  | nil => cases hr
  | cons x xs ih =>
    rw [List.map_cons, List.nodup_cons] at hnd
    rcases List.mem_cons.mp hr with he | hm
    · subst he
      simp [List.find?]
    · have hne : (x.identifier == r.identifier) = false := by
        simp only [beq_eq_false_iff_ne, ne_eq]
        intro he
        exact hnd.1 (he ▸ List.mem_map_of_mem _ hm)
      rw [List.find?, hne]
      exact ih hnd.2 hm

/-- Folding the per-identifier conclusion application over the identifiers
of the fired rules equals folding the conclusions of the rules themselves,
when identifiers are duplicate-free. -/
theorem foldl_applyFiredId_eq (rules : List InferenceRule)
    (hnd : (rules.map (·.identifier)).Nodup) :
    ∀ (new : List InferenceRule) (facts : Facts),
      (∀ r ∈ new, r ∈ rules) →
      (new.map (·.identifier)).foldl (applyFiredId rules) facts =
        new.foldl applyRule facts := by
  intro new
  induction new with
  | nil => intro facts _; rfl
  | cons r rest ih =>
    intro facts hsub
    rw [List.map_cons, List.foldl_cons, List.foldl_cons]
    have : applyFiredId rules facts r.identifier = applyRule facts r := by
      unfold applyFiredId
      rw [find?_eq_of_mem_of_nodup rules r hnd (hsub r (by simp))]
    rw [this]
    exact ih (applyRule facts r) (fun r' hr' => hsub r' (by simp [hr']))

/-- Folding conclusions never removes a key. -/
theorem foldl_applyRule_keeps_keys :
    ∀ (new : List InferenceRule) (facts : Facts) (k : String),
      factsGet facts k ≠ none →
      factsGet (new.foldl applyRule facts) k ≠ none := by
  intro new
  induction new with
  | nil => intro facts k h; exact h
  | cons r rest ih =>
    intro facts k h
    rw [List.foldl_cons]
    exact ih (applyRule facts r) k
      (factsGet_set_isSome facts r.conclusion.1 r.conclusion.2 k h)

/-- A key whose value differs after folding conclusions is the conclusion
key of one of the folded rules. -/
theorem foldl_applyRule_changed_key :
    ∀ (new : List InferenceRule) (facts : Facts) (k : String),
      factsGet (new.foldl applyRule facts) k ≠ factsGet facts k →
      ∃ r ∈ new, r.conclusion.1 = k := by
  intro new
  induction new with
  | nil => intro facts k h; exact absurd rfl h
  | cons r rest ih =>
    intro facts k h
    by_cases hc : r.conclusion.1 = k
    · exact ⟨r, by simp, hc⟩
    · rw [List.foldl_cons] at h
      have hstep : factsGet (applyRule facts r) k = factsGet facts k :=
        factsGet_set_ne facts r.conclusion.1 r.conclusion.2 k hc
      obtain ⟨r', hr', hc'⟩ := ih (applyRule facts r) k (hstep ▸ h)
      exact ⟨r', by simp [hr'], hc'⟩

/-! ### A two-rule run with independent rules -/

/-- For a two-rule engine whose rules are already in sorted order, with both
rules eligible on the initial store and the second rule independent of the
first one's conclusion, the run fires the first rule and then the second in
the same pass. -/
theorem run_two_rules_sorted (hi lo : InferenceRule) (facts : Facts)
    (hid : hi.identifier ≠ lo.identifier)
    (hchi : checkConds hi.conditions facts = .ok true)
    (hclo : checkConds lo.conditions facts = .ok true)
    (hdhi : factsGet facts hi.conclusion.1 ≠ some hi.conclusion.2)
    (hdlo : factsGet facts lo.conclusion.1 ≠ some lo.conclusion.2)
    (hcond : ∀ c ∈ lo.conditions, c.1 ≠ hi.conclusion.1)
    (hckey : lo.conclusion.1 ≠ hi.conclusion.1) :
    run [hi, lo] facts =
      .ok (factsSet (factsSet facts hi.conclusion.1 hi.conclusion.2)
        lo.conclusion.1 lo.conclusion.2, [hi.identifier, lo.identifier]) := by
  have hlo2 : checkConds lo.conditions
      (factsSet facts hi.conclusion.1 hi.conclusion.2) = .ok true := by
    rw [checkConds_set_ne lo.conditions facts hi.conclusion.1 hi.conclusion.2
      hcond]
    exact hclo
  have hdlo2 : factsGet (factsSet facts hi.conclusion.1 hi.conclusion.2)
      lo.conclusion.1 ≠ some lo.conclusion.2 := by
    rw [factsGet_set_ne facts hi.conclusion.1 hi.conclusion.2 lo.conclusion.1
      (Ne.symm hckey)]
    exact hdlo
  have hpass1 : runPass [hi, lo] facts [] false =
      .ok (factsSet (factsSet facts hi.conclusion.1 hi.conclusion.2)
        lo.conclusion.1 lo.conclusion.2,
        [hi.identifier, lo.identifier], true) := by
    simp [runPass, hchi, hdhi, hlo2, hdlo2, Ne.symm hid]
  have hpass2 : runPass [hi, lo]
      (factsSet (factsSet facts hi.conclusion.1 hi.conclusion.2)
        lo.conclusion.1 lo.conclusion.2)
      [hi.identifier, lo.identifier] false =
      .ok (factsSet (factsSet facts hi.conclusion.1 hi.conclusion.2)
        lo.conclusion.1 lo.conclusion.2,
        [hi.identifier, lo.identifier], false) := by
    simp [runPass]
  unfold run
  rw [show ([hi, lo] : List InferenceRule).length + 1 = 1 + 1 + 1 from rfl]
  rw [runLoop, hpass1]
  simp only [if_true]
  rw [runLoop, hpass2]
  simp

end HeartDiseaseEngine

/-! ### Lemmas about the exporter's fact-key collection -/

theorem insertStr_perm (s : String) (l : List String) :
    List.Perm (insertStr s l) (s :: l) := by
  induction l with
  | nil => rfl
  | cons x xs ih =>
    rw [insertStr]
    by_cases h : (strLt s x || s == x) = true
    · rw [if_pos h]
    · rw [if_neg h]
      exact (List.Perm.cons x ih).trans (List.Perm.swap s x xs)

theorem sortStrings_perm (l : List String) :
    List.Perm (sortStrings l) l := by
  induction l with
  | nil => rfl
  | cons s ss ih =>
    exact (insertStr_perm s (sortStrings ss)).trans (List.Perm.cons s ih)

theorem sortedFactKeys_nodup (rules : List InferenceRule) :
    (sortedFactKeys rules).Nodup :=
  (sortStrings_perm (allFactKeys rules).dedup).nodup_iff.mpr
    (List.nodup_dedup (allFactKeys rules))

theorem mem_sortedFactKeys (rules : List InferenceRule) (k : String) :
    k ∈ sortedFactKeys rules ↔
      ∃ r ∈ rules, (∃ c ∈ r.conditions, c.1 = k) ∨ r.conclusion.1 = k := by
  rw [sortedFactKeys, (sortStrings_perm (allFactKeys rules).dedup).mem_iff,
    List.mem_dedup]
  unfold allFactKeys
  rw [List.mem_flatten]
  constructor
  · rintro ⟨l, hl, hk⟩
    obtain ⟨r, hr, rfl⟩ := List.mem_map.mp hl
    unfold ruleFactKeys at hk
    rcases List.mem_append.mp hk with hk | hk
    · obtain ⟨c, hc, hck⟩ := List.mem_map.mp hk
      exact ⟨r, hr, Or.inl ⟨c, hc, hck⟩⟩
    · exact ⟨r, hr, Or.inr (List.mem_singleton.mp hk).symm⟩
  · rintro ⟨r, hr, hk | hk⟩
    · obtain ⟨c, hc, hck⟩ := hk
      exact ⟨ruleFactKeys r, List.mem_map_of_mem _ hr,
        List.mem_append.mpr (Or.inl (hck ▸ List.mem_map_of_mem _ hc))⟩
    · exact ⟨ruleFactKeys r, List.mem_map_of_mem _ hr,
        List.mem_append.mpr (Or.inr (by simp [hk]))⟩

/-! ### Heap-level simulation for the frame claim -/

namespace HeartDiseaseEngine

/-- One heap-level pass only writes the working dict's address, leaves the
allocation counter alone, and computes exactly what the value-level pass
computes on the dict stored at that address. -/
theorem runPassH_sim (addr : Nat) :
    ∀ (rs : List InferenceRule) (fired : List String) (ch : Bool) (h : PyHeap),
      (∀ a, a ≠ addr → ((runPassH addr rs fired ch h).2).mem a = h.mem a) ∧
      ((runPassH addr rs fired ch h).2).next = h.next ∧
      (match runPass rs (h.mem addr) fired ch with
       | .ok (f', tr', ch') =>
          (runPassH addr rs fired ch h).1 = .ok (tr', ch') ∧
          ((runPassH addr rs fired ch h).2).mem addr = f'
       | .error e => (runPassH addr rs fired ch h).1 = .error e) := by
  intro rs
  induction rs with
  | nil =>
    intro fired ch h
    exact ⟨fun a _ => rfl, rfl, rfl, rfl⟩
  | cons r rs ih =>
    intro fired ch h
    rw [runPassH, runPass]
    by_cases hmem : r.identifier ∈ fired
    · rw [if_pos hmem, if_pos hmem]
      exact ih fired ch h
    · rw [if_neg hmem, if_neg hmem]
      cases hcc : checkConds r.conditions (h.mem addr) with
      | error e => exact ⟨fun a _ => rfl, rfl, rfl⟩
      | ok b =>
        cases b with
        | false => exact ih fired ch h
        | true =>
          by_cases hnoop :
              factsGet (h.mem addr) r.conclusion.1 = some r.conclusion.2
          · rw [if_pos hnoop, if_pos hnoop]
            exact ih fired ch h
          · rw [if_neg hnoop, if_neg hnoop]
            set h' := heapWrite h addr
              (factsSet (h.mem addr) r.conclusion.1 r.conclusion.2) with hh'
            have hmem' :
                h'.mem addr =
                  factsSet (h.mem addr) r.conclusion.1 r.conclusion.2 := by
              simp [hh', heapWrite]
            obtain ⟨f1, f2, f3⟩ := ih (fired ++ [r.identifier]) true h'
            refine ⟨?_, ?_, ?_⟩
            · intro a ha
              rw [f1 a ha]
              simp [hh', heapWrite, ha]
            · rw [f2]
              simp [hh', heapWrite]
            · rw [← hmem']
              exact f3

/-- The heap-level loop only writes the working dict's address and returns
the trace the value-level loop returns, leaving the final store at that
address. -/
theorem runLoopH_sim (rules : List InferenceRule) (addr : Nat) :
    ∀ (fuel : Nat) (fired : List String) (h : PyHeap),
      (∀ a, a ≠ addr →
        ((runLoopH rules addr fuel fired h).2).mem a = h.mem a) ∧
      ((runLoopH rules addr fuel fired h).2).next = h.next ∧
      (∀ tr, (runLoopH rules addr fuel fired h).1 = .ok tr →
        runLoop rules fuel (h.mem addr) fired =
          some (.ok (((runLoopH rules addr fuel fired h).2).mem addr, tr))) := by
  intro fuel
  induction fuel with
  | zero =>
    intro fired h
    exact ⟨fun a _ => rfl, rfl, fun tr htr => by exact absurd htr (by simp [runLoopH])⟩
  | succ fuel ih =>
    intro fired h
    rw [runLoopH, runLoop]
    obtain ⟨p1, p2, p3⟩ := runPassH_sim addr rules fired false h
    cases hp : runPass rules (h.mem addr) fired false with
    | error e =>
      rw [hp] at p3
      rcases hres : runPassH addr rules fired false h with ⟨res1, h1⟩
      rw [hres] at p1 p2 p3
      simp only at p3
      rw [p3]
      exact ⟨p1, p2, fun tr htr => by exact absurd htr (by simp)⟩
    | ok out =>
      obtain ⟨facts1, fired1, changed⟩ := out
      rw [hp] at p3
      rcases hres : runPassH addr rules fired false h with ⟨res1, h1⟩
      rw [hres] at p1 p2 p3
      simp only at p3
      obtain ⟨p3a, p3b⟩ := p3
      rw [p3a]
      cases changed with
      | false =>
        simp only [Bool.false_eq_true, if_false]
        refine ⟨p1, p2, fun tr htr => ?_⟩
        simp only [Except.ok.injEq] at htr
        rw [p3b, htr]
      | true =>
        simp only [if_true]
        obtain ⟨q1, q2, q3⟩ := ih fired1 h1
        refine ⟨fun a ha => (q1 a ha).trans (p1 a ha), q2.trans p2,
          fun tr htr => ?_⟩
        rw [← p3b]
        exact q3 tr htr

end HeartDiseaseEngine

/-! ### Claim theorems -/

/-- Claim C1: for every rule set and every initial fact store, in the pair
`(finalFacts, firedOrder)` returned by `HeartDiseaseEngine.run`, each rule
identifier appears at most once in `firedOrder` — the trace is
duplicate-free, so a rule that has fired once is never fired again in the
same run. -/
theorem run_fires_each_rule_at_most_once (rules : List InferenceRule)
    (facts finalFacts : Facts) (firedOrder : List String)
    (h : HeartDiseaseEngine.run rules facts = .ok (finalFacts, firedOrder)) :
    firedOrder.Nodup := by
  unfold HeartDiseaseEngine.run at h
  cases hr : HeartDiseaseEngine.runLoop rules (rules.length + 1) facts [] with
  | none => rw [hr] at h; simp at h
  | some x =>
    rw [hr] at h
    simp only [Option.getD_some] at h
    subst h
    obtain ⟨new, e1, _, _, e4, _⟩ :=
      HeartDiseaseEngine.runLoop_ok_spec rules (rules.length + 1) facts []
        finalFacts firedOrder hr
    rw [e1]
    simpa using e4

/-- Witness for C1: the Scenario-A run fires `R1` then `R2`, and the trace
`["R1", "R2"]` is duplicate-free. -/
theorem run_fires_each_rule_at_most_once_witness :
    HeartDiseaseEngine.run [scR1, scR2] [("a", Value.int 1)] =
      .ok ([("a", Value.int 1), ("b", Value.int 1), ("c", Value.int 1)],
        ["R1", "R2"]) ∧
    (["R1", "R2"] : List String).Nodup :=
  ⟨rfl, run_fires_each_rule_at_most_once [scR1, scR2] [("a", Value.int 1)]
    [("a", Value.int 1), ("b", Value.int 1), ("c", Value.int 1)]
    ["R1", "R2"] rfl⟩

/-- Claim C2: for every rule set of size N and every initial fact store,
the `while` loop of `HeartDiseaseEngine.run` reaches its exit within N+1
passes: the fuel-indexed loop already returns a result with fuel N+1 (it
never runs out), and that result is exactly what `run` returns. -/
theorem run_terminates_in_bounded_passes (rules : List InferenceRule)
    (facts : Facts) :
    ∃ out, HeartDiseaseEngine.runLoop rules (rules.length + 1) facts [] =
        some out ∧
      HeartDiseaseEngine.run rules facts = out := by
  have h := HeartDiseaseEngine.runLoop_isSome rules (rules.length + 1) facts []
    (by simp) (by simp) (by omega)
  obtain ⟨out, hout⟩ := Option.isSome_iff_exists.mp h
  refine ⟨out, hout, ?_⟩
  unfold HeartDiseaseEngine.run
  rw [hout]
  rfl

/-- Claim C3: `HeartDiseaseEngine.run` is deterministic — two invocations
with the same rule set and the same initial fact store return identical
`(finalFacts, firedOrder)` results. -/
theorem run_deterministic (rules₁ rules₂ : List InferenceRule)
    (facts₁ facts₂ : Facts) (hr : rules₁ = rules₂) (hf : facts₁ = facts₂) :
    HeartDiseaseEngine.run rules₁ facts₁ = HeartDiseaseEngine.run rules₂ facts₂ := by
  rw [hr, hf]

/-- Witness for C3 at the Scenario-A input. -/
theorem run_deterministic_witness :
    HeartDiseaseEngine.run [scR1, scR2] [("a", Value.int 1)] =
      HeartDiseaseEngine.run [scR1, scR2] [("a", Value.int 1)] :=
  run_deterministic [scR1, scR2] [scR1, scR2]
    [("a", Value.int 1)] [("a", Value.int 1)] rfl rfl

/-- Claim C6: `HeartDiseaseEngine.__init__` stably sorts the given rules by
priority descending: the result is a permutation of the input, every rule
precedes every later rule of lower priority (descending pairwise order), and
for each priority the rules carrying it keep their original relative order
(the filtered subsequences agree).  The transformation is pure: the input
list and the rule records are values, not mutated. -/
theorem init_stable_sort_by_priority_desc (rules : List InferenceRule) :
    List.Perm (HeartDiseaseEngine.init rules) rules ∧
    (HeartDiseaseEngine.init rules).Pairwise
      (fun a b => b.priority ≤ a.priority) ∧
    ∀ p : Int, (HeartDiseaseEngine.init rules).filter (prioEq p) =
      rules.filter (prioEq p) :=
  ⟨HeartDiseaseEngine.init_perm rules, HeartDiseaseEngine.init_pairwise rules,
    fun p => HeartDiseaseEngine.init_filter rules p⟩

/-- Claim C7: for two rules with disjoint condition/conclusion keys and
different priorities, both eligible on the first pass (conditions true and
conclusion differing in the initial store), the engine built from them fires
both, and the higher-priority rule's identifier precedes the lower-priority
rule's identifier in `firedOrder`. -/
theorem priority_order_respected_in_trace (A B : InferenceRule)
    (facts : Facts)
    (hpr : A.priority ≠ B.priority)
    (hid : A.identifier ≠ B.identifier)
    (hA : checkConds A.conditions facts = .ok true)
    (hB : checkConds B.conditions facts = .ok true)
    (hdA : factsGet facts A.conclusion.1 ≠ some A.conclusion.2)
    (hdB : factsGet facts B.conclusion.1 ≠ some B.conclusion.2)
    (hBca : ∀ c ∈ B.conditions, c.1 ≠ A.conclusion.1)
    (hAcb : ∀ c ∈ A.conditions, c.1 ≠ B.conclusion.1)
    (hkey : A.conclusion.1 ≠ B.conclusion.1) :
    ∃ f tr, engineRun [A, B] facts = .ok (f, tr) ∧
      A.identifier ∈ tr ∧ B.identifier ∈ tr ∧
      (B.priority < A.priority →
        tr.indexOf A.identifier < tr.indexOf B.identifier) ∧
      (A.priority < B.priority →
        tr.indexOf B.identifier < tr.indexOf A.identifier) := by
  unfold engineRun
  have hinit : HeartDiseaseEngine.init [A, B] =
      if B.priority ≤ A.priority then [A, B] else [B, A] := rfl
  by_cases hc : B.priority ≤ A.priority
  · have hlt : B.priority < A.priority := lt_of_le_of_ne hc (Ne.symm hpr)
    rw [hinit, if_pos hc]
    refine ⟨_, [A.identifier, B.identifier],
      HeartDiseaseEngine.run_two_rules_sorted A B facts hid hA hB hdA hdB
        hBca (Ne.symm hkey), by simp, by simp, ?_, ?_⟩
    · intro _
      rw [List.indexOf_cons_self,
        List.indexOf_cons_ne [B.identifier] hid,
        List.indexOf_cons_self]
      omega
    · intro hlt'
      exact absurd hlt' (not_lt_of_lt hlt)
  · have hlt : A.priority < B.priority := lt_of_not_le hc
    rw [hinit, if_neg hc]
    refine ⟨_, [B.identifier, A.identifier],
      HeartDiseaseEngine.run_two_rules_sorted B A facts (Ne.symm hid) hB hA
        hdB hdA hAcb hkey, by simp, by simp, ?_, ?_⟩
    · intro hlt'
      exact absurd hlt' (not_lt_of_lt hlt)
    · intro _
      rw [List.indexOf_cons_self,
        List.indexOf_cons_ne [A.identifier] (Ne.symm hid),
        List.indexOf_cons_self]
      omega

/-- Witness for C7: two unrelated eligible rules with priorities 2 and 1 —
the priority-2 rule's identifier comes first in the trace. -/
theorem priority_order_respected_in_trace_witness :
    ∃ f tr,
      engineRun [⟨"P", [("a", "==", Value.int 1)], ("p", Value.int 1), 2⟩,
        ⟨"Q", [("b", "==", Value.int 1)], ("q", Value.int 1), 1⟩]
        [("a", Value.int 1), ("b", Value.int 1)] = .ok (f, tr) ∧
      "P" ∈ tr ∧ "Q" ∈ tr ∧
      ((1 : Int) < 2 → tr.indexOf "P" < tr.indexOf "Q") ∧
      ((2 : Int) < 1 → tr.indexOf "Q" < tr.indexOf "P") :=
  priority_order_respected_in_trace
    ⟨"P", [("a", "==", Value.int 1)], ("p", Value.int 1), 2⟩
    ⟨"Q", [("b", "==", Value.int 1)], ("q", Value.int 1), 1⟩
    [("a", Value.int 1), ("b", Value.int 1)]
    (by decide) (by decide) rfl rfl (by decide) (by decide)
    (by decide) (by decide) (by decide)

/-- Claim C10: with duplicate-free rule identifiers, the final store equals
the initial store updated, in firing order, with the conclusion of each rule
whose identifier appears in `firedOrder`; consequently no initially present
key is removed, and every key whose final value is new or changed is the
conclusion key of some fired rule. -/
theorem run_final_facts_from_fired_conclusions
    (rules : List InferenceRule) (facts finalFacts : Facts)
    (firedOrder : List String)
    (hnd : (rules.map (·.identifier)).Nodup)
    (hrun : HeartDiseaseEngine.run rules facts = .ok (finalFacts, firedOrder)) :
    finalFacts =
      firedOrder.foldl (HeartDiseaseEngine.applyFiredId rules) facts ∧
    (∀ k, factsGet facts k ≠ none → factsGet finalFacts k ≠ none) ∧
    (∀ k, factsGet finalFacts k ≠ factsGet facts k →
      ∃ i ∈ firedOrder, ∃ r,
        rules.find? (fun r' => r'.identifier == i) = some r ∧
        r.conclusion.1 = k) := by
  unfold HeartDiseaseEngine.run at hrun
  cases hr : HeartDiseaseEngine.runLoop rules (rules.length + 1) facts [] with
  | none => rw [hr] at hrun; simp at hrun
  | some x =>
    rw [hr] at hrun
    simp only [Option.getD_some] at hrun
    subst hrun
    obtain ⟨new, e1, e2, e3, _, _⟩ :=
      HeartDiseaseEngine.runLoop_ok_spec rules (rules.length + 1) facts []
        finalFacts firedOrder hr
    rw [List.nil_append] at e1
    refine ⟨?_, ?_, ?_⟩
    · rw [e1, e2, HeartDiseaseEngine.foldl_applyFiredId_eq rules hnd new facts e3]
    · intro k hk
      rw [e2]
      exact HeartDiseaseEngine.foldl_applyRule_keeps_keys new facts k hk
    · intro k hk
      rw [e2] at hk
      obtain ⟨r, hrm, hck⟩ :=
        HeartDiseaseEngine.foldl_applyRule_changed_key new facts k hk
      refine ⟨r.identifier, ?_, r, ?_, hck⟩
      · rw [e1]
        exact List.mem_map_of_mem _ hrm
      · exact HeartDiseaseEngine.find?_eq_of_mem_of_nodup rules r hnd (e3 r hrm)

/-- Witness for C10 at the Scenario-A input: the final store is the fold of
the conclusions of `R1` and `R2` over the initial store. -/
theorem run_final_facts_from_fired_conclusions_witness :
    HeartDiseaseEngine.run [scR1, scR2] [("a", Value.int 1)] =
      .ok ([("a", Value.int 1), ("b", Value.int 1), ("c", Value.int 1)],
        ["R1", "R2"]) ∧
    [("a", Value.int 1), ("b", Value.int 1), ("c", Value.int 1)] =
      (["R1", "R2"] : List String).foldl
        (HeartDiseaseEngine.applyFiredId [scR1, scR2]) [("a", Value.int 1)] :=
  ⟨rfl,
    (run_final_facts_from_fired_conclusions [scR1, scR2] [("a", Value.int 1)]
      [("a", Value.int 1), ("b", Value.int 1), ("c", Value.int 1)]
      ["R1", "R2"] (by decide) rfl).1⟩

/-- Claim C9: `HeartDiseaseEngine.run` operates on a copy of the
caller-supplied initial facts.  At the heap level, `runH` allocates a fresh
copy of the dict at `initAddr` and mutates only the copy: the caller's dict
is unchanged after the run, and on success the copy's address holds exactly
the `finalFacts` that the value-level `run` computes from the initial
facts, paired with the same `firedOrder`. -/
theorem run_does_not_mutate_initial_facts (rules : List InferenceRule)
    (h : PyHeap) (initAddr : Nat) (hvalid : initAddr < h.next) :
    ((HeartDiseaseEngine.runH rules initAddr h).2).mem initAddr =
      h.mem initAddr ∧
    (∀ a fired,
      (HeartDiseaseEngine.runH rules initAddr h).1 = .ok (a, fired) →
      ∃ final,
        HeartDiseaseEngine.run rules (h.mem initAddr) = .ok (final, fired) ∧
        ((HeartDiseaseEngine.runH rules initAddr h).2).mem a = final) := by
  have hne : initAddr ≠ h.next := Nat.ne_of_lt hvalid
  have hrunH : HeartDiseaseEngine.runH rules initAddr h =
      match HeartDiseaseEngine.runLoopH rules h.next (rules.length + 1) []
        (heapAlloc h (h.mem initAddr)).2 with
      | (.error e, h2) => (.error e, h2)
      | (.ok fired, h2) => (.ok (h.next, fired), h2) := rfl
  have halloc_ne : ∀ a, a ≠ h.next →
      ((heapAlloc h (h.mem initAddr)).2).mem a = h.mem a := by
    intro a ha
    simp [heapAlloc, ha]
  have halloc_eq :
      ((heapAlloc h (h.mem initAddr)).2).mem h.next = h.mem initAddr := by
    simp [heapAlloc]
  obtain ⟨q1, q2, q3⟩ :=
    HeartDiseaseEngine.runLoopH_sim rules h.next (rules.length + 1) []
      (heapAlloc h (h.mem initAddr)).2
  rcases hres :
    HeartDiseaseEngine.runLoopH rules h.next (rules.length + 1) []
      (heapAlloc h (h.mem initAddr)).2 with ⟨res, h2⟩
  rw [hres] at q1 q2 q3 hrunH
  constructor
  · cases res with
    | error e =>
      rw [hrunH]
      exact (q1 initAddr hne).trans (halloc_ne initAddr hne)
    | ok fired =>
      rw [hrunH]
      exact (q1 initAddr hne).trans (halloc_ne initAddr hne)
  · intro a fired hok
    cases res with
    | error e =>
      rw [hrunH] at hok
      exact absurd hok (by simp)
    | ok fired2 =>
      rw [hrunH] at hok
      simp only [Except.ok.injEq, Prod.mk.injEq] at hok
      obtain ⟨ha, hf⟩ := hok
      subst ha
      subst hf
      have hloop := q3 fired2 rfl
      rw [halloc_eq] at hloop
      refine ⟨h2.mem h.next, ?_, by rw [hrunH]⟩
      unfold HeartDiseaseEngine.run
      rw [hloop]
      rfl

/-- Witness for C9: on a one-object heap holding the empty dict, running the
empty rule set leaves the caller's dict unchanged. -/
theorem run_does_not_mutate_initial_facts_witness :
    (0 : Nat) < 1 ∧
    ((HeartDiseaseEngine.runH [] 0 ⟨fun _ => [], 1⟩).2).mem 0 =
      (⟨fun _ => [], 1⟩ : PyHeap).mem 0 :=
  ⟨Nat.one_pos,
    (run_does_not_mutate_initial_facts [] ⟨fun _ => [], 1⟩ 0 Nat.one_pos).1⟩

set_option maxRecDepth 8192 in
/-- Claim C8: `build_graph_dot` emits one fact node per distinct fact key
occurring in any rule's conditions or conclusion (the key list is
duplicate-free and contains exactly those keys) and one rule block per rule
(its node line, an edge from each condition key to the rule, an edge from
the rule to its conclusion key); on the two-rule set
`{R1: if a==1 then b=1; R2: if b==1 then c=1}` the output has exactly the 3
fact nodes `a,b,c`, the 2 rule nodes, and the edges
`a->rule_0, rule_0->b, b->rule_1, rule_1->c`. -/
theorem build_graph_dot_shape :
    (∀ (rules : List InferenceRule) (fired : List String),
      (sortedFactKeys rules).Nodup ∧
      (∀ k, k ∈ sortedFactKeys rules ↔
        ∃ r ∈ rules, (∃ c ∈ r.conditions, c.1 = k) ∨ r.conclusion.1 = k) ∧
      build_graph_lines rules fired =
        graphHeader ++ (sortedFactKeys rules).map factNodeLine ++
          (rules.enum.map (fun p => ruleBlock fired p.1 p.2)).flatten ++
          ["\x7d"]) ∧
    build_graph_dot [scR1, scR2] [] =
      "digraph G \x7b\nrankdir=LR;\nnode [shape=box, style=\"rounded,filled\", fillcolor=\"#ffffff\"];\n\"a\" [shape=oval, fillcolor=\"#ffffe0\"];\n\"b\" [shape=oval, fillcolor=\"#ffffe0\"];\n\"c\" [shape=oval, fillcolor=\"#ffffe0\"];\n\"rule_0\" [label=\"R1\", shape=box, style=\"filled\", fillcolor=\"#e6f0ff\"];\n\"a\" -> \"rule_0\";\n\"rule_0\" -> \"b\";\n\"rule_1\" [label=\"R2\", shape=box, style=\"filled\", fillcolor=\"#e6f0ff\"];\n\"b\" -> \"rule_1\";\n\"rule_1\" -> \"c\";\n\x7d" :=
  ⟨fun rules fired =>
    ⟨sortedFactKeys_nodup rules, mem_sortedFactKeys rules, rfl⟩, by rfl⟩

/-- Claim C4 counterexample: rule `R` concludes `("k", 1)` and the initial
store already maps `k` to `1`, yet `R` appears in the returned `firedOrder`:
the higher-priority rule `X` first overwrites `k` with `2`, after which `R`'s
"differs" check succeeds and `R` fires. -/
theorem noop_suppression_counterexample :
    ceR.conclusion = ("k", Value.int 1) ∧
    factsGet [("a", Value.int 1), ("k", Value.int 1)] "k" =
      some (Value.int 1) ∧
    engineRun [ceX, ceR] [("a", Value.int 1), ("k", Value.int 1)] =
      .ok ([("a", Value.int 1), ("k", Value.int 1)], ["X", "R"]) ∧
    ceR.identifier ∈ (["X", "R"] : List String) :=
  ⟨rfl, rfl, rfl, by decide⟩

/-- Claim C4 (amended): a rule `R` whose conclusion `(k, v)` already holds in
the initial store never fires, provided no rule of the set can write a
different value to `k` (every rule concluding on key `k` concludes `v`) and
no rule with `R`'s identifier concludes on another key.  Without the first
proviso the claim fails: another rule may overwrite `k`, making `R`'s
"differs" check succeed on a later pass (see the counterexample). -/
theorem rule_with_preexisting_conclusion_never_fires
    (rules : List InferenceRule) (R : InferenceRule) (k : String) (v : Value)
    (facts finalFacts : Facts) (firedOrder : List String)
    (_hconcl : R.conclusion = (k, v))
    (hinit : factsGet facts k = some v)
    (hvals : ∀ r ∈ rules, r.conclusion.1 = k → r.conclusion.2 = v)
    (hids : ∀ r ∈ rules, r.identifier = R.identifier → r.conclusion.1 = k)
    (hrun : HeartDiseaseEngine.run rules facts = .ok (finalFacts, firedOrder)) :
    R.identifier ∉ firedOrder := by
  unfold HeartDiseaseEngine.run at hrun
  cases hr : HeartDiseaseEngine.runLoop rules (rules.length + 1) facts [] with
  | none => rw [hr] at hrun; simp at hrun
  | some x =>
    rw [hr] at hrun
    simp only [Option.getD_some] at hrun
    subst hrun
    exact HeartDiseaseEngine.runLoop_noop_invariant rules k v R.identifier
      hvals hids (rules.length + 1) facts [] finalFacts firedOrder hinit
      (by simp) hr

/-- Witness for the amended C4: with rule `R` alone (no other writer of `k`)
and `k ↦ 1` initially, the run fires nothing and `R` is not in the trace. -/
theorem rule_with_preexisting_conclusion_never_fires_witness :
    factsGet [("a", Value.int 1), ("k", Value.int 1)] "k" =
      some (Value.int 1) ∧
    HeartDiseaseEngine.run [ceR] [("a", Value.int 1), ("k", Value.int 1)] =
      .ok ([("a", Value.int 1), ("k", Value.int 1)], []) ∧
    ceR.identifier ∉ ([] : List String) :=
  ⟨rfl, rfl,
    rule_with_preexisting_conclusion_never_fires [ceR] ceR "k" (Value.int 1)
      [("a", Value.int 1), ("k", Value.int 1)]
      [("a", Value.int 1), ("k", Value.int 1)] [] rfl rfl
      (by decide) (by decide) rfl⟩

/-- Claim C5 counterexample: `check_condition` does not return a boolean in
all cases — an ordered comparison between an int fact value and a string
comparison value raises a `TypeError` (modelled as `.error ()`), as in Python
`1 >= "x"` does. -/
theorem check_condition_raises_on_mixed_ordered_comparison :
    check_condition ("k", ">=", Value.str "x") [("k", Value.int 1)] =
      .error () := rfl

/-- Claim C5 (amended): `check_condition` returns false when the key is
absent and when the operator is outside the supported set, and it returns a
boolean without raising whenever either the operator is `==` or `!=` or the
stored and comparison values have the same Python type; with an ordered
operator on mixed types it raises (`.error ()`). -/
theorem check_condition_fails_open (c : Condition) (facts : Facts) :
    (factsGet facts c.1 = none → check_condition c facts = .ok false) ∧
    (c.2.1 ∉ (["==", "!=", ">=", "<=", ">", "<"] : List String) →
      check_condition c facts = .ok false) ∧
    (∀ cur, factsGet facts c.1 = some cur →
      (sameKind cur c.2.2 = true ∨ c.2.1 = "==" ∨ c.2.1 = "!=") →
      ∃ b, check_condition c facts = .ok b) ∧
    (∀ cur, factsGet facts c.1 = some cur → sameKind cur c.2.2 = false →
      c.2.1 ∈ ([">=", "<=", ">", "<"] : List String) →
      check_condition c facts = .error ()) := by
  obtain ⟨k, op, v⟩ := c
  refine ⟨?_, ?_, ?_, ?_⟩
  · intro hget
    simp only [check_condition, hget]
  · intro hop
    simp only [List.mem_cons, List.not_mem_nil, or_false, not_or] at hop
    obtain ⟨h1, h2, h3, h4, h5, h6⟩ := hop
    simp only [check_condition]
    cases hget : factsGet facts k with
    | none => rfl
    | some cur => simp [h1, h2, h3, h4, h5, h6]
  · intro cur hget hkind
    simp only [check_condition, hget]
    split
    · exact ⟨_, rfl⟩
    · exact ⟨_, rfl⟩
    · rcases hkind with hk | hop | hop
      · cases cur <;> cases v <;> simp_all [sameKind, valueGe, valueLe]
      · simp_all
      · simp_all
    · rcases hkind with hk | hop | hop
      · cases cur <;> cases v <;> simp_all [sameKind, valueLe]
      · simp_all
      · simp_all
    · rcases hkind with hk | hop | hop
      · cases cur <;> cases v <;> simp_all [sameKind, valueGt, valueLt]
      · simp_all
      · simp_all
    · rcases hkind with hk | hop | hop
      · cases cur <;> cases v <;> simp_all [sameKind, valueLt]
      · simp_all
      · simp_all
    · exact ⟨_, rfl⟩
  · intro cur hget hkind hop
    simp only [List.mem_cons, List.not_mem_nil, or_false] at hop
    simp only [check_condition, hget]
    rcases hop with hop | hop | hop | hop <;> subst hop <;>
      cases cur <;> cases v <;>
        simp_all [sameKind, valueGe, valueLe, valueGt, valueLt]

/-- Witness for the amended C5 at concrete inputs: an absent key, an
unsupported operator, and a well-typed ordered comparison. -/
theorem check_condition_fails_open_witness :
    check_condition ("missing", "==", Value.int 1) [] = .ok false ∧
    check_condition ("k", "~=", Value.int 1) [("k", Value.int 2)] = .ok false ∧
    ∃ b, check_condition ("k", ">=", Value.int 1) [("k", Value.int 2)] = .ok b :=
  ⟨(check_condition_fails_open ("missing", "==", Value.int 1) []).1 rfl,
   (check_condition_fails_open ("k", "~=", Value.int 1)
     [("k", Value.int 2)]).2.1 (by decide),
   (check_condition_fails_open ("k", ">=", Value.int 1)
     [("k", Value.int 2)]).2.2.1 (Value.int 2) rfl (Or.inl rfl)⟩

end HeartDisease
